import Mathlib

/-!
Verification development for the fin-rag-app retrieval pipeline.

Text is modelled as `Str := List Char`.  Machine floats (similarity
scores) are modelled as rationals; embedding vectors are an abstract
type parameter, produced by an abstract provider function.  External
network services (embedding provider, vector index backend, language
model, JSON parser of the standard library) are modelled as explicit
function parameters; all repository logic is translated function by
function from the Python source.
-/

namespace FinRag

/-- Text, modelled as a list of characters. -/
abbrev Str := List Char

/-- Opening-brace character, written via its code point. -/
def lbraceC : Char := Char.ofNat 123

/-- Closing-brace character, written via its code point. -/
def rbraceC : Char := Char.ofNat 125

/-- Opening-bracket character, written via its code point. -/
def lbrackC : Char := Char.ofNat 91

/-- Closing-bracket character, written via its code point. -/
def rbrackC : Char := Char.ofNat 93

/-- JSON-like values: the shape of data handled by `json.dumps` and
`json.loads` in `pinecone_client.py`.  Numbers are modelled as integers. -/
inductive JValue where
  | null : JValue
  | bool (b : Bool) : JValue
  | num (n : Int) : JValue
  | str (s : Str) : JValue
  | arr (xs : List JValue) : JValue
  | obj (fields : List (Str × JValue)) : JValue

mutual

/-- Boolean equality of JSON values (model of Python `==` on parsed JSON). -/
def jBeq : JValue → JValue → Bool
  | .null, .null => true
  | .bool a, .bool b => a == b
  | .num a, .num b => a == b
  | .str a, .str b => a == b
  | .arr xs, .arr ys => jBeqArr xs ys
  | .obj fs, .obj gs => jBeqObj fs gs
  | _, _ => false

/-- Boolean equality of JSON arrays, element by element. -/
def jBeqArr : List JValue → List JValue → Bool
  | [], [] => true
  | x :: xs, y :: ys => jBeq x y && jBeqArr xs ys
  | _, _ => false

/-- Boolean equality of JSON objects, field by field. -/
def jBeqObj : List (Str × JValue) → List (Str × JValue) → Bool
  | [], [] => true
  | (k, v) :: fs, (l, w) :: gs => k == l && jBeq v w && jBeqObj fs gs
  | _, _ => false

end

def jBeqArr_iff (xs ys : List JValue)
    (hx : ∀ x ∈ xs, ∀ b, jBeq x b = true ↔ x = b) :
    jBeqArr xs ys = true ↔ xs = ys := by
  induction xs generalizing ys with
  | nil => cases ys <;> simp [jBeqArr]
  | cons x xs ih =>
    cases ys with
    | nil => simp [jBeqArr]
    | cons y ys =>
      rw [jBeqArr]
      simp only [Bool.and_eq_true, hx x (by simp) y,
        ih ys (fun z hz b => hx z (by simp [hz]) b), List.cons.injEq]

def jBeqObj_iff (fs gs : List (Str × JValue))
    (hx : ∀ kv ∈ fs, ∀ b, jBeq kv.2 b = true ↔ kv.2 = b) :
    jBeqObj fs gs = true ↔ fs = gs := by
  induction fs generalizing gs with
  | nil => cases gs <;> simp [jBeqObj]
  | cons kv fs ih =>
    obtain ⟨k, v⟩ := kv
    cases gs with
    | nil => simp [jBeqObj]
    | cons lw gs =>
      obtain ⟨l, w⟩ := lw
      rw [jBeqObj]
      simp only [Bool.and_eq_true, beq_iff_eq, hx (k, v) (by simp) w,
        ih gs (fun z hz b => hx z (by simp [hz]) b), List.cons.injEq,
        Prod.mk.injEq, and_assoc]

def jBeq_sound : ∀ (n : Nat) (a b : JValue), sizeOf a ≤ n →
    (jBeq a b = true ↔ a = b) := by
  intro n
  induction n with
  | zero =>
    intro a b h
    exact absurd h (by cases a <;> simp)
  | succ n ih =>
    intro a b h
    cases a <;> cases b
    case arr.arr xs ys =>
      have hsz : sizeOf xs ≤ n := by
        have hs : sizeOf (JValue.arr xs) = 1 + sizeOf xs := by simp
        omega
      rw [show jBeq (JValue.arr xs) (JValue.arr ys) = jBeqArr xs ys from rfl]
      rw [jBeqArr_iff xs ys (fun x hx b => by
        have hlt := List.sizeOf_lt_of_mem hx
        exact ih x b (by omega))]
      simp
    case obj.obj fs gs =>
      have hsz : sizeOf fs ≤ n := by
        have hs : sizeOf (JValue.obj fs) = 1 + sizeOf fs := by simp
        omega
      rw [show jBeq (JValue.obj fs) (JValue.obj gs) = jBeqObj fs gs from rfl]
      rw [jBeqObj_iff fs gs (fun kv hkv b => by
        have hlt := List.sizeOf_lt_of_mem hkv
        have hv : sizeOf kv.2 < sizeOf kv := by
          obtain ⟨k, v⟩ := kv
          simp
        exact ih kv.2 b (by omega))]
      simp
    all_goals simp [jBeq]

def jBeq_iff (a b : JValue) : jBeq a b = true ↔ a = b :=
  jBeq_sound (sizeOf a) a b le_rfl

instance : DecidableEq JValue := fun a b => decidable_of_iff _ (jBeq_iff a b)

/-- Escape a character the way `json.dumps` escapes string content
(backslash, double quote and common control characters). -/
def escChar (c : Char) : Str :=
  if c = '"' then ['\\', '"']
  else if c = '\\' then ['\\', '\\']
  else if c = '\n' then ['\\', 'n']
  else if c = '\t' then ['\\', 't']
  else if c = '\r' then ['\\', 'r']
  else [c]

/-- Serialize a string literal the way `json.dumps` does. -/
def dumpsString (s : Str) : Str :=
  '"' :: (s.map escChar).flatten ++ ['"']

mutual

/-- Model of Python `json.dumps` with its default separators, as used in
`PineconeVectorStore.upsert_documents` to serialize nested metadata. -/
def dumps : JValue → Str
  | .null => "null".toList
  | .bool true => "true".toList
  | .bool false => "false".toList
  | .num n => (toString n).toList
  | .str s => dumpsString s
  | .arr xs => lbrackC :: dumpsArr xs ++ [rbrackC]
  | .obj fs => lbraceC :: dumpsObj fs ++ [rbraceC]

/-- Serialize the elements of a JSON array, separated by a comma and space. -/
def dumpsArr : List JValue → Str
  | [] => []
  | [x] => dumps x
  | x :: y :: rest => dumps x ++ ", ".toList ++ dumpsArr (y :: rest)

/-- Serialize the fields of a JSON object, separated by a comma and space. -/
def dumpsObj : List (Str × JValue) → Str
  | [] => []
  | [(k, v)] => dumpsString k ++ ": ".toList ++ dumps v
  | (k, v) :: p :: rest =>
      dumpsString k ++ ": ".toList ++ dumps v ++ ", ".toList ++ dumpsObj (p :: rest)

end

/-- Model of Python `str()` applied to a parsed-JSON scalar, as used in
`upsert_documents` for non-nested metadata values. -/
def pyStr : JValue → Str
  | .null => "None".toList
  | .bool true => "True".toList
  | .bool false => "False".toList
  | .num n => (toString n).toList
  | .str s => s
  | v => dumps v

/-- A document dictionary as it flows through the pipeline
(`content`, `content_type`, `ticker`, `source`, optional filing fields,
chunk bookkeeping and the open metadata mapping). -/
structure Document where
  content : Str
  contentType : Option Str := none
  ticker : Option Str := none
  source : Option Str := none
  filingType : Option Str := none
  filingDate : Option Str := none
  chunkId : Option Nat := none
  chunkCount : Option Nat := none
  metadata : Option (List (Str × JValue)) := none
deriving DecidableEq

/-! ### Chunker

`TextChunker` (text_chunker.py) delegates splitting to langchain's
`RecursiveCharacterTextSplitter` configured with
`separators = ["\n\n", "\n", ".", "!", "?", ",", " ", ""]`,
`length_function = len` and the default `keep_separator = True`.
The definitions below are translated from that splitter's
implementation (`_split_text`, `_split_text_with_regex`,
`_merge_splits`, `_join_docs`), an external library dependency of the
repository. -/

/-- Whether `sep` is a prefix of `text` (literal-pattern match at the head). -/
def startsWithStr : Str → Str → Bool
  | [], _ => true
  | _ :: _, [] => false
  | c :: cs, d :: ds => c = d && startsWithStr cs ds

/-- First occurrence of the literal separator `sep` in `text`, returned as
the text before the occurrence and the text after it (the behaviour of
`re.search`/`re.split` on an escaped pattern). -/
def findOcc (sep : Str) : Str → Option (Str × Str)
  | [] => none
  | c :: rest =>
    if startsWithStr sep (c :: rest) then some ([], (c :: rest).drop sep.length)
    else
      match findOcc sep rest with
      | none => none
      | some (b, a) => some (c :: b, a)

def findOcc_some_lt (sep : Str) (text b a : Str) (hs : sep ≠ [])
    (h : findOcc sep text = some (b, a)) : a.length < text.length := by
  induction text generalizing b a with
  | nil => simp [findOcc] at h
  | cons c rest ih =>
    rw [findOcc] at h
    split at h
    · simp only [Option.some.injEq, Prod.mk.injEq] at h
      obtain ⟨h1, h2⟩ := h
      subst h2
      have hlen : 0 < sep.length := List.length_pos.mpr hs
      simp only [List.length_drop, List.length_cons]
      omega
    · cases hro : findOcc sep rest with
      | none => simp only [hro] at h; exact Option.noConfusion h
      | some p =>
        obtain ⟨b', a'⟩ := p
        simp only [hro, Option.some.injEq, Prod.mk.injEq] at h
        obtain ⟨h1, h2⟩ := h
        subst h2
        have := ih b' a' hro
        simp only [List.length_cons]
        omega

/-- Model of `re.split` on an escaped (literal) separator: cut the text at
every non-overlapping occurrence of `sep`, scanning left to right. -/
def splitOnStr (sep : Str) (text : Str) : List Str :=
  if hs : sep = [] then [text]
  else
    match h : findOcc sep text with
    | none => [text]
    | some (b, a) => b :: splitOnStr sep a
termination_by text.length
decreasing_by exact findOcc_some_lt sep text b a hs h

/-- Model of langchain `_split_text_with_regex` with `keep_separator=True`:
the separator is re-attached to the front of the piece that follows it, and
empty pieces are dropped.  An empty separator splits into single characters. -/
def splitTextWithSep (sep : Str) (text : Str) : List Str :=
  if sep = [] then (text.map (fun c => [c])).filter (fun s => !s.isEmpty)
  else
    match splitOnStr sep text with
    | [] => []
    | p :: ps => (p :: ps.map (fun q => sep ++ q)).filter (fun s => !s.isEmpty)

/-- Python whitespace characters recognised by `str.strip`. -/
def isPySpace (c : Char) : Bool :=
  (c = ' ') || (c = '\t') || (c = '\n') || (c = '\r') ||
  (c = Char.ofNat 11) || (c = Char.ofNat 12)

/-- Model of Python `str.strip()`: drop whitespace from both ends. -/
def pyStrip (s : Str) : Str :=
  ((s.dropWhile isPySpace).reverse.dropWhile isPySpace).reverse

/-- Model of langchain `_join_docs` with the empty merge separator used when
`keep_separator=True`: concatenate, strip, and drop the result if empty. -/
def joinDocs (docs : List Str) : Option Str :=
  if pyStrip docs.flatten = [] then none else some (pyStrip docs.flatten)

/-- The pop-from-front loop inside langchain `_merge_splits` that enforces
the `chunk_overlap` bound before the next split is appended.  `l` is the
length of the split about to be appended; the merge separator is empty. -/
def popWhile (C O l : Nat) : List Str → Nat → List Str × Nat
  | [], total => ([], total)
  | d :: rest, total =>
    if O < total ∨ (C < total + l ∧ 0 < total) then
      popWhile C O l rest (total - d.length)
    else (d :: rest, total)

/-- The main loop of langchain `_merge_splits` (empty merge separator):
accumulate splits while the accumulated length stays within `chunk_size`,
emitting the joined accumulator and trimming it back to `chunk_overlap`
when the next split would overflow. -/
def mergeLoop (C O : Nat) : List Str → List Str → Nat → List Str → List Str
  | [], current, _total, docs =>
    match joinDocs current with
    | none => docs
    | some doc => docs ++ [doc]
  | d :: rest, current, total, docs =>
    if C < total + d.length then
      match current with
      | [] => mergeLoop C O rest [d] (total + d.length) docs
      | _ :: _ =>
        mergeLoop C O rest
          ((popWhile C O d.length current total).1 ++ [d])
          ((popWhile C O d.length current total).2 + d.length)
          (match joinDocs current with
           | none => docs
           | some doc => docs ++ [doc])
    else mergeLoop C O rest (current ++ [d]) (total + d.length) docs

/-- Model of langchain `_merge_splits` applied to a run of good splits. -/
def mergeSplits (C O : Nat) (splits : List Str) : List Str :=
  mergeLoop C O splits [] 0 []

/-- The separator-selection loop at the head of langchain `_split_text`:
take the first separator that is empty or occurs in the text, together
with the list of finer separators after it; `dflt` is `separators[-1]`. -/
def chooseSep (dflt : Str) (seps : List Str) (text : Str) : Str × List Str :=
  match seps with
  | [] => (dflt, [])
  | s :: rest =>
    if s = [] then ([], [])
    else if (findOcc s text).isSome then (s, rest)
    else chooseSep dflt rest text

def chooseSep_snd_lt (dflt : Str) (seps : List Str) (text : Str)
    (h : seps ≠ []) : (chooseSep dflt seps text).2.length < seps.length := by
  induction seps with
  | nil => exact absurd rfl h
  | cons s rest ih =>
    rw [chooseSep]
    split
    · simp
    · split
      · simp
      · cases rest with
        | nil => rw [chooseSep]; simp
        | cons t ts =>
          have := ih (by simp)
          simp only [List.length_cons] at this ⊢
          omega

mutual

/-- Model of langchain `RecursiveCharacterTextSplitter._split_text`:
choose the coarsest applicable separator, split on it, merge runs of
small splits, and recurse with the finer separators on oversize splits.
An empty separator list makes the Python code raise (caught upstream in
`chunk_document`, which then returns no chunks). -/
def splitText (C O : Nat) (seps : List Str) (text : Str) : List Str :=
  if hseps : seps = [] then []
  else
    processSplits C O (chooseSep (seps.getLastD []) seps text).2
      (splitTextWithSep (chooseSep (seps.getLastD []) seps text).1 text) [] []
termination_by (seps.length, 0, 0)
decreasing_by
  apply Prod.Lex.left
  exact chooseSep_snd_lt (seps.getLastD []) seps text hseps

/-- The split-processing loop inside `_split_text`: good splits (shorter
than `chunk_size`) are accumulated and merged; an oversize split either
ends up as its own chunk (no finer separators) or is split recursively. -/
def processSplits (C O : Nat) (newSeps : List Str) (splits : List Str)
    (good : List Str) (final : List Str) : List Str :=
  match splits with
  | [] => if good = [] then final else final ++ mergeSplits C O good
  | s :: rest =>
    if s.length < C then processSplits C O newSeps rest (good ++ [s]) final
    else
      if newSeps = [] then
        processSplits C O newSeps rest []
          ((if good = [] then final else final ++ mergeSplits C O good) ++ [s])
      else
        processSplits C O newSeps rest []
          ((if good = [] then final else final ++ mergeSplits C O good) ++
            splitText C O newSeps s)
termination_by (newSeps.length, 1, splits.length)
decreasing_by
  · apply Prod.Lex.right
    apply Prod.Lex.right
    simp only [List.length_cons]
    omega
  · apply Prod.Lex.right
    apply Prod.Lex.right
    simp only [List.length_cons]
    omega
  · apply Prod.Lex.right
    apply Prod.Lex.left
    omega
  · apply Prod.Lex.right
    apply Prod.Lex.right
    simp only [List.length_cons]
    omega

end

/-- The separator list configured in `TextChunker.__init__`. -/
def defaultSeparators : List Str :=
  [['\n', '\n'], ['\n'], ['.'], ['!'], ['?'], [','], [' '], []]

/-- The `for i, chunk_text in enumerate(chunks)` loop of
`TextChunker.chunk_document`: copy the parent document, replace its
content with the chunk text, and set `chunk_id`/`chunk_count`. -/
def enumChunks (doc : Document) (n : Nat) : List Str → Nat → List Document
  | [], _ => []
  | t :: ts, i =>
    { doc with content := t, chunkId := some i, chunkCount := some n } ::
      enumChunks doc n ts (i + 1)

/-- Model of `TextChunker.chunk_document` with configured `chunk_size = C`
and `chunk_overlap = O`: empty content yields no chunks, otherwise the text
is split and each piece becomes a copy of the document with `chunk_id` and
`chunk_count` set. -/
def chunkDocument (C O : Nat) (doc : Document) : List Document :=
  if doc.content = [] then []
  else
    let chunks := splitText C O defaultSeparators doc.content
    enumChunks doc chunks.length chunks 0

/-! ### Embedding generator (embeddings.py)

The OpenAI batch call is modelled by an abstract `provider` function that
returns one embedding per valid input text, in input order; embeddings are
an abstract type `E`. -/

/-- Model of `OpenAIEmbeddings.get_embeddings`: drop empty (or non-string,
which the typed model excludes) texts, return no embeddings when nothing
valid remains, otherwise one embedding per valid text in order. -/
def getEmbeddings {E : Type} (provider : Str → E) (texts : List Str) : List E :=
  let valid := texts.filter (fun t => !t.isEmpty)
  if valid.isEmpty then [] else valid.map provider

/-- Model of `OpenAIEmbeddings.embed_documents`: extract each document's
content in order and embed the batch, returning the untouched document list
together with the embeddings. -/
def embedDocuments {E : Type} (provider : Str → E) (docs : List Document) :
    List Document × List E :=
  (docs, getEmbeddings provider (docs.map Document.content))

/-! ### Vector store (pinecone_client.py)

The Pinecone index is modelled as an association list from record id to
record; upserting with an existing id overwrites in place, which is the
backend contract the id scheme relies on. -/

/-- First-match lookup in an association list keyed by strings
(model of reading a Python dict entry). -/
def lookupKV {α : Type} : List (Str × α) → Str → Option α
  | [], _ => none
  | (k, v) :: rest, key => if k = key then some v else lookupKV rest key

/-- Model of Python dict assignment `d[k] = v`: replace the value in place
when the key exists (keeping its position), else append the new entry. -/
def insertKV {α : Type} : List (Str × α) → Str → α → List (Str × α)
  | [], key, v => [(key, v)]
  | (k, w) :: rest, key, v =>
    if k = key then (key, v) :: rest else (k, w) :: insertKV rest key v

/-- The record id built in `upsert_documents`:
ticker, content type and chunk id joined by underscores, with the defaults
`unknown`/`doc` for missing fields and the enumeration position for a
missing `chunk_id`. -/
def mkDocId (doc : Document) (i : Nat) : Str :=
  (doc.ticker.getD ("unknown".toList)) ++ ['_'] ++
  (doc.contentType.getD ("doc".toList)) ++ ['_'] ++
  (toString (doc.chunkId.getD i)).toList

/-- The base metadata dict built in `upsert_documents` before optional
fields are added; `i` is the enumeration position. -/
def baseMetadata (doc : Document) (i : Nat) : List (Str × JValue) :=
  [("ticker".toList, .str (doc.ticker.getD [])),
   ("content_type".toList, .str (doc.contentType.getD ("document".toList))),
   ("source".toList, .str (doc.source.getD [])),
   ("chunk_id".toList, .num (doc.chunkId.getD i)),
   ("chunk_count".toList, .num (doc.chunkCount.getD 1))]

/-- The `filing_type`/`filing_date` additions in `upsert_documents`. -/
def withFiling (doc : Document) (md : List (Str × JValue)) : List (Str × JValue) :=
  let md1 := match doc.filingType with
    | none => md
    | some ft => insertKV md ("filing_type".toList) (.str ft)
  match doc.filingDate with
  | none => md1
  | some fd => insertKV md1 ("filing_date".toList) (.str fd)

/-- How `upsert_documents` flattens one metadata value: nested dict or list
values are serialized with `json.dumps`, every other value goes through
`str()`. -/
def encodeMetaVal : JValue → JValue
  | .obj fs => .str (dumps (.obj fs))
  | .arr xs => .str (dumps (.arr xs))
  | v => .str (pyStr v)

/-- The `for k, v in doc["metadata"].items()` loop of `upsert_documents`:
each extracted-metadata entry is flattened and written into the record
metadata dict. -/
def addDocMetadata (md : List (Str × JValue)) (items : List (Str × JValue)) :
    List (Str × JValue) :=
  items.foldl (fun acc kv => insertKV acc kv.1 (encodeMetaVal kv.2)) md

/-- The full record metadata built by `upsert_documents` for the document
at enumeration position `i`, ending with the truncated `text_snippet`. -/
def prepareMetadata (doc : Document) (i : Nat) : List (Str × JValue) :=
  let md0 := withFiling doc (baseMetadata doc i)
  let md1 := match doc.metadata with
    | none => md0
    | some items => addDocMetadata md0 items
  insertKV md1 ("text_snippet".toList) (.str (doc.content.take 1000))

/-- A record written to the vector index: id, embedding and flattened
metadata. -/
structure VecRecord (E : Type) where
  id : Str
  values : E
  metadata : List (Str × JValue)

/-- The `for i, (doc, embedding) in enumerate(zip(documents, embeddings))`
loop of `upsert_documents`, building one record per zipped pair. -/
def buildVectorsAux {E : Type} : List (Document × E) → Nat → List (VecRecord E)
  | [], _ => []
  | (d, e) :: rest, i =>
    { id := mkDocId d i, values := e, metadata := prepareMetadata d i } ::
      buildVectorsAux rest (i + 1)

/-- The records `upsert_documents` assembles for a batch of documents and
embeddings, paired strictly by list position. -/
def buildVectors {E : Type} (docs : List Document) (embeddings : List E) :
    List (VecRecord E) :=
  buildVectorsAux (docs.zip embeddings) 0

/-- Model of one backend upsert of a single record: overwrite by id. -/
def insertRecord {E : Type} (store : List (Str × VecRecord E))
    (r : VecRecord E) : List (Str × VecRecord E) :=
  insertKV store r.id r

/-- Model of `PineconeVectorStore.upsert_documents` acting on an
initialized index: build the records, write them all (the 500-record
batching only groups the backend calls and does not change the resulting
store), and report success. -/
def upsertDocuments {E : Type} (store : List (Str × VecRecord E))
    (docs : List Document) (embeddings : List E) :
    List (Str × VecRecord E) × Bool :=
  ((buildVectors docs embeddings).foldl insertRecord store, true)

/-- A raw match returned by the index backend for a query. -/
structure QueryMatch where
  id : Str
  score : ℚ
  metadata : Option (List (Str × JValue))
deriving DecidableEq

/-- A result dict built by `PineconeVectorStore.query` from one match. -/
structure QueryResult where
  id : Str
  score : ℚ
  metadata : Option (List (Str × JValue))
deriving DecidableEq

/-- The opportunistic JSON decoding `query` applies to one stored metadata
value: a string that starts with an opening brace and ends with a closing
brace is passed to `json.loads` (modelled by the abstract `loads`
parameter), keeping the string when parsing fails; everything else is
returned unchanged. -/
def decodeMetaVal (loads : Str → Option JValue) : JValue → JValue
  | .str s =>
    if s.head? = some lbraceC ∧ s.getLast? = some rbraceC then
      match loads s with
      | some j => j
      | none => .str s
    else .str s
  | v => v

/-- The `for k, v in result["metadata"].items()` decoding loop of `query`. -/
def decodeMetadata (loads : Str → Option JValue) (md : List (Str × JValue)) :
    List (Str × JValue) :=
  md.map (fun kv => (kv.1, decodeMetaVal loads kv.2))

/-- Model of the result shaping in `PineconeVectorStore.query`, given the
matches the backend returned: every match becomes a result dict, with its
metadata attached and decoded when `include_metadata` is set and the match
carries metadata. -/
def pineQuery (loads : Str → Option JValue) (includeMetadata : Bool)
    (ms : List QueryMatch) : List QueryResult :=
  ms.map (fun m =>
    { id := m.id, score := m.score,
      metadata :=
        if includeMetadata then m.metadata.map (decodeMetadata loads)
        else none })

/-! ### Retriever (retriever.py) -/

/-- A retrieved document as shaped by `DocumentRetriever.retrieve_documents`. -/
structure RetrievedDoc where
  id : Str
  content : JValue
  score : ℚ
  metadata : List (Str × JValue)
deriving DecidableEq

/-- Model of the result-shaping half of
`DocumentRetriever.retrieve_documents`: the query embedding and the index
call are upstream suspension points, so the function is stated on the
matches the backend returned; `query` is called with
`include_metadata=True`, then every result that carries metadata is turned
into a document with the stored `text_snippet` as content. -/
def retrieveDocuments (loads : Str → Option JValue)
    (ms : List QueryMatch) : List RetrievedDoc :=
  (pineQuery loads true ms).filterMap (fun r =>
    r.metadata.map (fun md =>
      { id := r.id,
        content := (lookupKV md ("text_snippet".toList)).getD (.str []),
        score := r.score,
        metadata := md }))

/-! ### Answer synthesizer (query_engine.py)

The chat model is an abstract function from formatted context and query to
an answer; the model result additionally reports how many language-model
calls were made, making the call effect explicit. -/

/-- Python truthiness of a parsed-JSON value. -/
def jTruthy : JValue → Bool
  | .null => false
  | .bool b => b
  | .num n => n ≠ 0
  | .str s => !s.isEmpty
  | .arr xs => !xs.isEmpty
  | .obj fs => !fs.isEmpty

/-- Whether a parsed-JSON value equals a given Python string. -/
def jEqStrB (v : JValue) (s : Str) : Bool :=
  match v with
  | .str t => t = s
  | _ => false

/-- Join a list of strings with a separator (Python `sep.join`). -/
def joinSepStr (sep : Str) : List Str → Str
  | [] => []
  | [x] => x
  | x :: y :: rest => x ++ sep ++ joinSepStr sep (y :: rest)

/-- The per-document header built in
`RAGQueryEngine.format_retrieved_documents` from the document's metadata
and its position. -/
def docHeader (i : Nat) (md : List (Str × JValue)) : Str :=
  let docType := (lookupKV md ("content_type".toList)).getD (.str ("document".toList))
  let filingTypeV := (lookupKV md ("filing_type".toList)).getD (.str [])
  let filingDateV := (lookupKV md ("filing_date".toList)).getD (.str [])
  let withDate : Str → Str := fun base =>
    if jTruthy filingDateV then base ++ " (".toList ++ pyStr filingDateV ++ ")".toList
    else base
  if jEqStrB docType ("sec_filing".toList) && jTruthy filingTypeV then
    withDate (pyStr filingTypeV ++ " Filing".toList)
  else if jEqStrB docType ("news".toList) then withDate ("News Article".toList)
  else if jEqStrB docType ("financial_data".toList) then withDate ("Financial Data".toList)
  else "Document ".toList ++ (toString (i + 1)).toList

/-- The enumerated loop of `format_retrieved_documents` building one
bracketed context part per document. -/
def formatParts : List RetrievedDoc → Nat → List Str
  | [], _ => []
  | d :: ds, i =>
    (lbrackC :: docHeader i d.metadata ++ [rbrackC, '\n'] ++ pyStr d.content ++ ['\n']) ::
      formatParts ds (i + 1)

/-- Model of `RAGQueryEngine.format_retrieved_documents`. -/
def formatRetrievedDocuments (docs : List RetrievedDoc) : Str :=
  if docs.isEmpty then "No relevant information found.".toList
  else joinSepStr ['\n'] (formatParts docs 0)

/-- Apostrophe character, written via its code point. -/
def aposC : Char := Char.ofNat 39

/-- The fixed no-relevant-information answer text returned by
`RAGQueryEngine.answer_question` when retrieval yields no documents. -/
def noRelevantInfoMsg : Str :=
  "I couldn".toList ++ [aposC] ++
  "t find relevant information to answer your question. Please try a different question or provide more specific details.".toList

/-- A source citation dict as projected by `answer_question` from one
retrieved document's metadata. -/
structure SourceEntry where
  type : JValue
  source : JValue
  filingType : Option JValue := none
  filingDate : Option JValue := none
deriving DecidableEq

/-- The citation-projection loop of `answer_question`: one entry per
retrieved document, in retrieval order, with optional filing fields. -/
def buildSources (docs : List RetrievedDoc) : List SourceEntry :=
  docs.map (fun d =>
    { type := (lookupKV d.metadata ("content_type".toList)).getD (.str ("document".toList)),
      source := (lookupKV d.metadata ("source".toList)).getD (.str ("Unknown".toList)),
      filingType := lookupKV d.metadata ("filing_type".toList),
      filingDate := lookupKV d.metadata ("filing_date".toList) })

/-- The answer/sources pair returned by `answer_question`. -/
structure AnswerResult where
  answer : Str
  sources : List SourceEntry
deriving DecidableEq

/-- Model of `RAGQueryEngine.answer_question` after the retrieval
suspension point: `docs` is what the retriever returned, `llm` the chat
model (context and query to answer text).  The second component counts
language-model invocations.  The function is total: no exception escapes. -/
def answerQuestion (docs : List RetrievedDoc) (query : Str)
    (llm : Str → Str → Str) : AnswerResult × Nat :=
  if docs.isEmpty then
    ({ answer := noRelevantInfoMsg, sources := [] }, 0)
  else
    ({ answer := llm (formatRetrievedDocuments docs) query,
       sources := buildSources docs }, 1)

/-! ### Query augmentation (augmentation.py) -/

/-- A metadata filter value in the generated search filters: an equality
filter or a value-in-set filter. -/
inductive PineFilter where
  | eq (v : Str) : PineFilter
  | inSet (vs : List Str) : PineFilter
deriving DecidableEq

/-- The filter dict built by `generate_search_filters` (possible keys:
`ticker` and `content_type`). -/
structure SearchFilters where
  ticker : Option PineFilter := none
  contentType : Option PineFilter := none
deriving DecidableEq

/-- How `generate_search_filters` turns one parsed list from the model
response into a filter entry: falsy (absent or empty) lists are omitted,
singletons become equality filters, longer lists become in-set filters. -/
def listToFilter : Option (List Str) → Option PineFilter
  | none => none
  | some [] => none
  | some [t] => some (.eq t)
  | some (t :: u :: rest) => some (.inSet (t :: u :: rest))

/-- Model of the filter-construction half of
`QueryAugmentation.generate_search_filters`, stated on the `tickers` and
`document_types` lists of the successfully parsed model response. -/
def generateSearchFilters (tickers documentTypes : Option (List Str)) :
    SearchFilters :=
  { ticker := listToFilter tickers, contentType := listToFilter documentTypes }

/-! ### Metadata extractor (metadata_extractor.py)

The period/entity/sentiment backends (regex extraction, spaCy, TextBlob)
are abstract fallible functions; Python's in-place mutation is modelled by
threading the partially updated document, so that an exception caught by
the surrounding `try` returns the document as mutated so far. -/

/-- Model of `MetadataExtractor.extract_metadata`. -/
def extractMetadata (fPeriods fEntities : Str → Except Unit JValue)
    (fSentiment : Str → Except Unit (JValue × JValue)) (doc : Document) :
    Document :=
  if doc.content = [] then doc
  else
    let d1 : Document := { doc with metadata := some (doc.metadata.getD []) }
    match fPeriods doc.content with
    | .error _ => d1
    | .ok periods =>
      let md2 := insertKV (d1.metadata.getD []) ("financial_periods".toList) periods
      let d2 : Document := { d1 with metadata := some md2 }
      match fEntities doc.content with
      | .error _ => d2
      | .ok ents =>
        let md3 := insertKV (d2.metadata.getD []) ("entities".toList) ents
        let d3 : Document := { d2 with metadata := some md3 }
        match fSentiment (doc.content.take 5000) with
        | .error _ => d3
        | .ok ps =>
          let md4 := insertKV (insertKV (d3.metadata.getD []) ("sentiment".toList) ps.1) ("subjectivity".toList) ps.2
          { d3 with metadata := some md4 }

/-! ### Report assembly (research_service.py) -/

/-- The de-duplication loop of `ResearchService.generate_research_report`:
walk the collected sources keeping a seen-set of `source` values, keeping
only the first entry for each value, in order. -/
def dedupAux : List SourceEntry → List JValue → List SourceEntry
  | [], _ => []
  | s :: rest, seen =>
    if s.source ∈ seen then dedupAux rest seen
    else s :: dedupAux rest (s.source :: seen)

/-- Model of the source de-duplication in `generate_research_report`,
applied to the concatenation of all section and summary sources. -/
def dedupSources (l : List SourceEntry) : List SourceEntry :=
  dedupAux l []

/-- Reference definition, following the spec's words: the sublist keeping
exactly the first occurrence of each `source` value, in first-occurrence
order. -/
def firstOccurrences : List SourceEntry → List SourceEntry
  | [] => []
  | s :: rest =>
    s :: firstOccurrences (rest.filter (fun t => decide (t.source ≠ s.source)))
termination_by l => l.length
decreasing_by
  have := List.length_filter_le (fun t => decide (t.source ≠ s.source)) rest
  simp only [List.length_cons]
  omega

/-! ### Claim C7 -/

/-- C7: when retrieval yields no documents, `RAGQueryEngine.answer_question`
returns the fixed no-relevant-information answer with an empty source list,
performs zero language-model calls, and (being a total function on this
branch) raises no exception. -/
theorem answerQuestion_empty_retrieval (query : Str) (llm : Str → Str → Str) :
    answerQuestion [] query llm = ({ answer := noRelevantInfoMsg, sources := [] }, 0) :=
  rfl

/-! ### Claim C8 -/

/-- C8: `generate_search_filters` maps a one-element tickers list to an
equality filter, a multi-element list to an in-set filter, and omits the
key when the list is empty or absent; likewise for document types mapped
to the `content_type` key. -/
theorem generateSearchFilters_mapping (t d : Str) (ts ds : List Str)
    (hts : 2 ≤ ts.length) (hds : 2 ≤ ds.length)
    (dts tks : Option (List Str)) :
    (generateSearchFilters (some [t]) dts).ticker = some (.eq t) ∧
    (generateSearchFilters (some ts) dts).ticker = some (.inSet ts) ∧
    (generateSearchFilters none dts).ticker = none ∧
    (generateSearchFilters (some []) dts).ticker = none ∧
    (generateSearchFilters tks (some [d])).contentType = some (.eq d) ∧
    (generateSearchFilters tks (some ds)).contentType = some (.inSet ds) ∧
    (generateSearchFilters tks none).contentType = none ∧
    (generateSearchFilters tks (some [])).contentType = none := by
  refine ⟨rfl, ?_, rfl, rfl, rfl, ?_, rfl, rfl⟩
  · match ts, hts with
    | t1 :: t2 :: rest, _ => rfl
  · match ds, hds with
    | d1 :: d2 :: rest, _ => rfl

/-- C8 witness: the mapping evaluated at concrete ticker and document-type
lists. -/
theorem generateSearchFilters_mapping_witness :
    (2 ≤ (["AAPL".toList, "MSFT".toList] : List Str).length) ∧
    (generateSearchFilters (some ["AAPL".toList, "MSFT".toList]) none).ticker =
      some (.inSet ["AAPL".toList, "MSFT".toList]) := by
  refine ⟨by decide, ?_⟩
  exact (generateSearchFilters_mapping ("AAPL".toList) ("10-K".toList)
    ["AAPL".toList, "MSFT".toList] ["10-K".toList, "10-Q".toList]
    (by decide) (by decide) none none).2.1

/-! ### Claim C9 -/

/-- C9: `MetadataExtractor.extract_metadata` returns a document whose
`content` equals the input document's `content`, on the success path, on
the empty-content path, and on every caught-exception path (modelled by
the abstract extractors returning an error). -/
theorem extractMetadata_preserves_content
    (fPeriods fEntities : Str → Except Unit JValue)
    (fSentiment : Str → Except Unit (JValue × JValue)) (doc : Document) :
    (extractMetadata fPeriods fEntities fSentiment doc).content = doc.content := by
  unfold extractMetadata
  split
  · rfl
  · cases fPeriods doc.content with
    | error e => rfl
    | ok periods =>
      cases fEntities doc.content with
      | error e => rfl
      | ok ents =>
        cases fSentiment (doc.content.take 5000) with
        | error e => rfl
        | ok ps => rfl

/-! ### Claim C4 -/

theorem dedupAux_pairwise_and_unseen (l : List SourceEntry) :
    ∀ seen : List JValue,
      (dedupAux l seen).Pairwise (fun a b => a.source ≠ b.source) ∧
      ∀ s ∈ dedupAux l seen, s.source ∉ seen := by
  induction l with
  | nil => intro seen; simp [dedupAux]
  | cons s rest ih =>
    intro seen
    rw [dedupAux]
    split
    · obtain ⟨h1, h2⟩ := ih seen
      exact ⟨h1, h2⟩
    · rename_i hnot
      obtain ⟨h1, h2⟩ := ih (s.source :: seen)
      constructor
      · refine List.pairwise_cons.mpr ⟨?_, h1⟩
        intro t ht
        have := h2 t ht
        simp only [List.mem_cons, not_or] at this
        exact fun he => this.1 he.symm
      · intro t ht
        rcases List.mem_cons.mp ht with h' | h'
        · subst h'; exact hnot
        · have := h2 t h'
          simp only [List.mem_cons, not_or] at this
          exact this.2

theorem dedupAux_eq_firstOccurrences (l : List SourceEntry) :
    ∀ seen : List JValue,
      dedupAux l seen =
        firstOccurrences (l.filter (fun t => decide (t.source ∉ seen))) := by
  induction l with
  | nil => intro seen; simp [dedupAux, firstOccurrences]
  | cons s rest ih =>
    intro seen
    rw [dedupAux, List.filter]
    split
    · rename_i hmem
      rw [decide_eq_false (by simpa using hmem)]
      exact ih seen
    · rename_i hnot
      rw [decide_eq_true (by simpa using hnot)]
      rw [firstOccurrences, ih (s.source :: seen), List.filter_filter]
      have hfil : List.filter (fun t => decide (t.source ∉ s.source :: seen)) rest
          = List.filter
              (fun a => decide (a.source ≠ s.source) && decide (a.source ∉ seen)) rest := by
        apply List.filter_congr
        intro t _
        rcases Decidable.em (t.source = s.source) with he | he <;>
          rcases Decidable.em (t.source ∈ seen) with hm | hm <;>
            simp [he, hm]
      rw [hfil]

/-- C4: the top-level sources list assembled by `generate_research_report`
contains no two entries with the same `source` value, and equals the
first-occurrence subsequence of the collected sources (so first-occurrence
order across sections is preserved). -/
theorem dedupSources_spec (l : List SourceEntry) :
    (dedupSources l).Pairwise (fun a b => a.source ≠ b.source) ∧
    dedupSources l = firstOccurrences l := by
  constructor
  · exact (dedupAux_pairwise_and_unseen l []).1
  · have h := dedupAux_eq_firstOccurrences l []
    simpa [dedupSources] using h

/-! ### Claim C1 -/

theorem enumChunks_length (doc : Document) (n : Nat) :
    ∀ (ts : List Str) (i : Nat), (enumChunks doc n ts i).length = ts.length := by
  intro ts
  induction ts with
  | nil => intro i; rfl
  | cons t ts ih => intro i; simp [enumChunks, ih]

theorem enumChunks_map_chunkId (doc : Document) (n : Nat) :
    ∀ (ts : List Str) (i : Nat),
      (enumChunks doc n ts i).map Document.chunkId
        = (List.range' i ts.length).map some := by
  intro ts
  induction ts with
  | nil => intro i; rfl
  | cons t ts ih =>
    intro i
    rw [enumChunks, List.map_cons, List.length_cons, List.range'_succ, List.map_cons, ih]

theorem enumChunks_chunkCount (doc : Document) (n : Nat) :
    ∀ (ts : List Str) (i : Nat), ∀ ch ∈ enumChunks doc n ts i,
      ch.chunkCount = some n := by
  intro ts
  induction ts with
  | nil => intro i ch h; exact absurd h (by simp [enumChunks])
  | cons t ts ih =>
    intro i ch h
    rw [enumChunks] at h
    rcases List.mem_cons.mp h with h' | h'
    · subst h'; rfl
    · exact ih (i + 1) ch h'

/-- C1: for a document with non-empty content, `TextChunker.chunk_document`
assigns `chunk_id` values `0, 1, ..., n-1` in output order (the map of the
`chunk_id` fields is exactly the range of the output length), and every
chunk carries `chunk_count` equal to `n`, the number of chunks produced. -/
theorem chunkDocument_ids_contiguous (C O : Nat) (doc : Document)
    (h : doc.content ≠ []) :
    ((chunkDocument C O doc).map Document.chunkId
        = (List.range (chunkDocument C O doc).length).map some) ∧
    (∀ ch ∈ chunkDocument C O doc,
        ch.chunkCount = some (chunkDocument C O doc).length) := by
  unfold chunkDocument
  rw [if_neg h]
  constructor
  · rw [enumChunks_map_chunkId, enumChunks_length, List.range_eq_range']
  · intro ch hch
    rw [enumChunks_length]
    exact enumChunks_chunkCount doc _ _ 0 ch hch

/-- C1 witness: the id-contiguity conclusion instantiated at a concrete
two-character document. -/
theorem chunkDocument_ids_contiguous_witness :
    ({ content := "ab".toList : Document }.content ≠ []) ∧
    ((chunkDocument 1000 200 { content := "ab".toList }).map Document.chunkId
        = (List.range (chunkDocument 1000 200 { content := "ab".toList }).length).map some) :=
  ⟨by decide,
   (chunkDocument_ids_contiguous 1000 200 { content := "ab".toList } (by decide)).1⟩

/-! ### Claim C2 -/

theorem buildVectorsAux_length {E : Type} :
    ∀ (ps : List (Document × E)) (i : Nat),
      (buildVectorsAux ps i).length = ps.length := by
  intro ps
  induction ps with
  | nil => intro i; rfl
  | cons p ps ih =>
    obtain ⟨d, e⟩ := p
    intro i
    simp [buildVectorsAux, ih]

theorem buildVectorsAux_get {E : Type} :
    ∀ (ps : List (Document × E)) (i0 j : Nat)
      (h : j < (buildVectorsAux ps i0).length) (h' : j < ps.length),
      (buildVectorsAux ps i0).get ⟨j, h⟩ =
        { id := mkDocId (ps.get ⟨j, h'⟩).1 (i0 + j),
          values := (ps.get ⟨j, h'⟩).2,
          metadata := prepareMetadata (ps.get ⟨j, h'⟩).1 (i0 + j) } := by
  intro ps
  induction ps with
  | nil => intro i0 j h h'; exact absurd h' (by simp)
  | cons p ps ih =>
    obtain ⟨d, e⟩ := p
    intro i0 j h h'
    cases j with
    | zero => simp [buildVectorsAux]
    | succ j =>
      have hlen : j < (buildVectorsAux ps (i0 + 1)).length := by
        rw [buildVectorsAux_length]
        simpa using h'
      have := ih (i0 + 1) j hlen (by simpa using h')
      rw [show (buildVectorsAux ((d, e) :: ps) i0).get ⟨j + 1, h⟩
            = (buildVectorsAux ps (i0 + 1)).get ⟨j, hlen⟩ from rfl, this]
      have harith : i0 + 1 + j = i0 + (j + 1) := by omega
      simp [harith]

theorem lookupKV_insertKV {α : Type} :
    ∀ (st : List (Str × α)) (k : Str) (v : α),
      lookupKV (insertKV st k v) k = some v := by
  intro st
  induction st with
  | nil => intro k v; rw [insertKV, lookupKV, if_pos rfl]
  | cons p st ih =>
    obtain ⟨k', w⟩ := p
    intro k v
    rw [insertKV]
    split
    · rw [lookupKV, if_pos rfl]
    · rename_i hne
      rw [lookupKV, if_neg hne]
      exact ih k v

theorem insertKV_existing_key {α : Type} :
    ∀ (st : List (Str × α)) (k : Str) (v : α), k ∈ st.map Prod.fst →
      (insertKV st k v).length = st.length ∧
      (insertKV st k v).map Prod.fst = st.map Prod.fst := by
  intro st
  induction st with
  | nil => intro k v h; exact absurd h (by simp)
  | cons p st ih =>
    obtain ⟨k', w⟩ := p
    intro k v h
    rw [insertKV]
    split
    · rename_i he
      constructor
      · simp
      · simp [he]
    · rename_i hne
      have hmem : k ∈ st.map Prod.fst := by
        rw [List.map_cons] at h
        rcases List.mem_cons.mp h with h' | h'
        · exact absurd h'.symm hne
        · exact h'
      obtain ⟨h1, h2⟩ := ih k v hmem
      constructor
      · simp [h1]
      · simp [h2]

/-- C2: `upsert_documents` writes, for the record built at position `i`, the
id `ticker + underscore + content_type + underscore + chunk_id` with the
documented defaults (`unknown`, `doc`, and the position `i` when `chunk_id`
is absent); the id does not depend on the embeddings, so re-ingesting the
same document at the same position produces the identical id; and upserting
a record whose id already exists in the index replaces that record in place
rather than adding a new one. -/
theorem upsertDocuments_id_scheme {E : Type} (docs : List Document)
    (e1 e2 : List E) (i : Nat) (hd : i < docs.length)
    (h1 : i < (buildVectors docs e1).length)
    (h2 : i < (buildVectors docs e2).length) :
    (((buildVectors docs e1).get ⟨i, h1⟩).id
        = ((docs.get ⟨i, hd⟩).ticker.getD ("unknown".toList)) ++ ['_'] ++
          ((docs.get ⟨i, hd⟩).contentType.getD ("doc".toList)) ++ ['_'] ++
          (toString ((docs.get ⟨i, hd⟩).chunkId.getD i)).toList) ∧
    (((buildVectors docs e1).get ⟨i, h1⟩).id
        = ((buildVectors docs e2).get ⟨i, h2⟩).id) ∧
    (∀ (store : List (Str × VecRecord E)) (r : VecRecord E),
      r.id ∈ store.map Prod.fst →
      (insertRecord store r).length = store.length ∧
      (insertRecord store r).map Prod.fst = store.map Prod.fst ∧
      lookupKV (insertRecord store r) r.id = some r) := by
  have hz1 : i < (docs.zip e1).length := by
    have := buildVectorsAux_length (docs.zip e1) 0
    rw [buildVectors] at h1
    omega
  have hz2 : i < (docs.zip e2).length := by
    have := buildVectorsAux_length (docs.zip e2) 0
    rw [buildVectors] at h2
    omega
  have hg1 := buildVectorsAux_get (docs.zip e1) 0 i h1 hz1
  have hg2 := buildVectorsAux_get (docs.zip e2) 0 i h2 hz2
  have hzip1 : ((docs.zip e1).get ⟨i, hz1⟩).1 = docs.get ⟨i, hd⟩ := by
    have := @List.getElem_zip _ _ docs e1 i hz1
    simp only [List.get_eq_getElem, this]
  have hzip2 : ((docs.zip e2).get ⟨i, hz2⟩).1 = docs.get ⟨i, hd⟩ := by
    have := @List.getElem_zip _ _ docs e2 i hz2
    simp only [List.get_eq_getElem, this]
  have hid1 : ((buildVectors docs e1).get ⟨i, h1⟩).id
      = mkDocId (docs.get ⟨i, hd⟩) (0 + i) := by
    have h := congrArg VecRecord.id hg1
    rw [hzip1] at h
    exact h
  have hid2 : ((buildVectors docs e2).get ⟨i, h2⟩).id
      = mkDocId (docs.get ⟨i, hd⟩) (0 + i) := by
    have h := congrArg VecRecord.id hg2
    rw [hzip2] at h
    exact h
  refine ⟨?_, hid1.trans hid2.symm, ?_⟩
  · rw [hid1]
    simp [mkDocId]
  · intro store r hmem
    obtain ⟨hl, hk⟩ := insertKV_existing_key store r.id r hmem
    exact ⟨hl, hk, lookupKV_insertKV store r.id r⟩

/-- C2 witness: the id built for one concrete document and embedding at
position 0 is the ticker, content type and chunk id joined by underscores. -/
theorem upsertDocuments_id_scheme_witness :
    ((buildVectors [{ content := "x".toList, ticker := some ("AAPL".toList), contentType := some ("news".toList), chunkId := some 0 }] ([5] : List Nat)).get ⟨0, by decide⟩).id
      = "AAPL_news_0".toList := by
  have h := (upsertDocuments_id_scheme
    [{ content := "x".toList, ticker := some ("AAPL".toList), contentType := some ("news".toList), chunkId := some 0 }]
    [5] [7] 0 (by decide) (by decide) (by decide)).1
  exact h.trans (by decide)

/-! ### Claim C3 -/

/-- C3: assuming the index backend returns at most `top_k` matches ordered
by non-increasing score, `DocumentRetriever.retrieve_documents` returns at
most `top_k` documents with non-increasing scores: it keeps every match
that carries metadata, preserving order and scores, and drops the rest. -/
theorem retrieveDocuments_bounded_sorted (loads : Str → Option JValue)
    (ms : List QueryMatch) (topK : Nat)
    (hlen : ms.length ≤ topK)
    (hsort : ms.Pairwise (fun a b => b.score ≤ a.score)) :
    (retrieveDocuments loads ms).length ≤ topK ∧
    (retrieveDocuments loads ms).Pairwise (fun a b => b.score ≤ a.score) := by
  constructor
  · calc (retrieveDocuments loads ms).length
        ≤ (pineQuery loads true ms).length :=
          List.length_filterMap_le _ _
      _ = ms.length := by simp [pineQuery]
      _ ≤ topK := hlen
  · rw [retrieveDocuments, List.pairwise_filterMap, pineQuery, List.pairwise_map]
    refine hsort.imp_of_mem ?_
    intro a b _ _ hab
    intro x hx y hy
    have hxs : x.score = a.score := by
      rcases Option.map_eq_some'.mp hx with ⟨md, _, hxe⟩
      subst hxe
      rfl
    have hys : y.score = b.score := by
      rcases Option.map_eq_some'.mp hy with ⟨md, _, hye⟩
      subst hye
      rfl
    rw [hxs, hys]
    exact hab

/-- C3 witness: two backend matches with descending scores, one lacking
metadata, under a requested `top_k` of 5. -/
theorem retrieveDocuments_bounded_sorted_witness :
    (([⟨"a".toList, (3 : ℚ), some []⟩,
       ⟨"b".toList, (2 : ℚ), none⟩] : List QueryMatch).length ≤ 5) ∧
    (retrieveDocuments (fun _ => none)
        [⟨"a".toList, (3 : ℚ), some []⟩, ⟨"b".toList, (2 : ℚ), none⟩]).length ≤ 5 :=
  ⟨by decide,
   (retrieveDocuments_bounded_sorted (fun _ => none)
      [⟨"a".toList, (3 : ℚ), some []⟩, ⟨"b".toList, (2 : ℚ), none⟩] 5
      (by decide)
      (by
        refine List.pairwise_cons.mpr ⟨?_, List.pairwise_singleton _ _⟩
        intro b hb
        rw [List.mem_singleton.mp hb]
        norm_num)).1⟩

/-! ### Claim C5 -/

theorem lookupKV_insertKV_ne {α : Type} :
    ∀ (st : List (Str × α)) (k k' : Str) (v : α), k ≠ k' →
      lookupKV (insertKV st k' v) k = lookupKV st k := by
  intro st
  induction st with
  | nil =>
    intro k k' v hne
    simp only [insertKV, lookupKV]
    rw [if_neg (fun h => hne h.symm)]
  | cons p st ih =>
    obtain ⟨k0, w⟩ := p
    intro k k' v hne
    rw [insertKV]
    split
    · rename_i he
      subst he
      rw [lookupKV, lookupKV, if_neg (fun h => hne h.symm),
        if_neg (fun h => hne h.symm)]
    · rw [lookupKV, lookupKV]
      split
      · rfl
      · exact ih k k' v hne

theorem addDocMetadata_lookup_notmem (k : Str) :
    ∀ (items : List (Str × JValue)) (md0 : List (Str × JValue)),
      k ∉ items.map Prod.fst →
      lookupKV (addDocMetadata md0 items) k = lookupKV md0 k := by
  intro items
  induction items with
  | nil => intro md0 _; rfl
  | cons p rest ih =>
    obtain ⟨k0, v0⟩ := p
    intro md0 hnot
    rw [List.map_cons] at hnot
    have h1 : k ≠ k0 := by
      intro h
      subst h
      exact hnot (List.mem_cons_self k _)
    have h2 : k ∉ rest.map Prod.fst := by
      intro h
      exact hnot (List.mem_cons_of_mem _ h)
    rw [show addDocMetadata md0 ((k0, v0) :: rest)
          = addDocMetadata (insertKV md0 k0 (encodeMetaVal v0)) rest from rfl,
      ih _ h2, lookupKV_insertKV_ne _ _ _ _ h1]

theorem addDocMetadata_lookup (k : Str) (v : JValue) :
    ∀ (items : List (Str × JValue)) (md0 : List (Str × JValue)),
      (items.map Prod.fst).Nodup →
      lookupKV items k = some v →
      lookupKV (addDocMetadata md0 items) k = some (encodeMetaVal v) := by
  intro items
  induction items with
  | nil => intro md0 _ h; exact Option.noConfusion h
  | cons p rest ih =>
    obtain ⟨k0, v0⟩ := p
    intro md0 hnd hk
    rw [lookupKV] at hk
    rw [show addDocMetadata md0 ((k0, v0) :: rest)
          = addDocMetadata (insertKV md0 k0 (encodeMetaVal v0)) rest from rfl]
    by_cases he : k0 = k
    · subst he
      rw [if_pos rfl] at hk
      obtain rfl : v0 = v := Option.some.inj hk
      have hnot : k0 ∉ rest.map Prod.fst := by
        rw [List.map_cons] at hnd
        exact (List.nodup_cons.mp hnd).1
      rw [addDocMetadata_lookup_notmem k0 rest _ hnot, lookupKV_insertKV]
    · rw [if_neg he] at hk
      have hnd' : (rest.map Prod.fst).Nodup := by
        rw [List.map_cons] at hnd
        exact (List.nodup_cons.mp hnd).2
      exact ih _ hnd' hk

theorem lookupKV_decodeMetadata (loads : Str → Option JValue) (k : Str) :
    ∀ (md : List (Str × JValue)),
      lookupKV (decodeMetadata loads md) k
        = (lookupKV md k).map (decodeMetaVal loads) := by
  intro md
  induction md with
  | nil => rfl
  | cons p rest ih =>
    obtain ⟨k0, v0⟩ := p
    rw [decodeMetadata, List.map_cons, lookupKV, lookupKV]
    split
    · rfl
    · exact ih

theorem dumps_obj_head_last (fs : List (Str × JValue)) :
    (dumps (.obj fs)).head? = some lbraceC ∧
    (dumps (.obj fs)).getLast? = some rbraceC := by
  constructor
  · rfl
  · rw [show dumps (.obj fs) = (lbraceC :: dumpsObj fs) ++ [rbraceC] from rfl,
      List.getLast?_concat]

theorem decodeMetaVal_dumps_obj (loads : Str → Option JValue)
    (fs : List (Str × JValue))
    (hload : loads (dumps (.obj fs)) = some (.obj fs)) :
    decodeMetaVal loads (.str (dumps (.obj fs))) = .obj fs := by
  obtain ⟨hh, hl⟩ := dumps_obj_head_last fs
  rw [decodeMetaVal, if_pos ⟨hh, hl⟩, hload]

theorem prepareMetadata_lookup_nested (doc : Document) (i : Nat)
    (items : List (Str × JValue)) (hmd : doc.metadata = some items)
    (hnd : (items.map Prod.fst).Nodup) (k : Str) (v : JValue)
    (hk : lookupKV items k = some v)
    (hks : k ≠ "text_snippet".toList) :
    lookupKV (prepareMetadata doc i) k = some (encodeMetaVal v) := by
  rw [prepareMetadata, hmd]
  rw [lookupKV_insertKV_ne _ _ _ _ hks]
  exact addDocMetadata_lookup k v items _ hnd hk

/-- C5 counterexample: for a document whose metadata holds the list value
`[1, 2]`, upsert serializes it to the string `[1, 2]`, and the read path
leaves that string undecoded (the decode guard only accepts strings that
start with an opening brace and end with a closing brace), even under a
`json.loads` model that would decode it — so the round-trip claim fails
for list values. -/
theorem metadata_roundtrip_counterexample :
    (lookupKV
        (prepareMetadata
          { content := "x".toList,
            metadata := some [("k".toList, JValue.arr [.num 1, .num 2])] } 0)
        ("k".toList)
      = some (.str ("[1, 2]".toList))) ∧
    ((fun s => if s = "[1, 2]".toList
        then some (JValue.arr [.num 1, .num 2]) else none) ("[1, 2]".toList)
      = some (JValue.arr [.num 1, .num 2])) ∧
    (lookupKV
        (decodeMetadata
          (fun s => if s = "[1, 2]".toList
            then some (JValue.arr [.num 1, .num 2]) else none)
          (prepareMetadata
            { content := "x".toList,
              metadata := some [("k".toList, JValue.arr [.num 1, .num 2])] } 0))
        ("k".toList)
      = some (.str ("[1, 2]".toList))) ∧
    (JValue.str ("[1, 2]".toList) ≠ JValue.arr [.num 1, .num 2]) := by
  refine ⟨by decide, by decide, by decide, by decide⟩

/-- The metadata key named `text_snippet` cannot round-trip at all:
`upsert_documents` assigns the truncated content snippet to that key after
the extracted-metadata loop, overwriting whatever value (a serialized dict
included) the loop stored under that name.  The amended round-trip claim
must therefore exclude that one key. -/
theorem prepareMetadata_text_snippet_overwritten :
    lookupKV
      (prepareMetadata
        { content := "x".toList,
          metadata :=
            some [("text_snippet".toList, JValue.obj [("a".toList, JValue.num 1)])] } 0)
      ("text_snippet".toList)
    = some (.str ("x".toList)) := by decide

/-- C5 amended: the round-trip holds for dict-valued (JSON object)
metadata stored under any key other than `text_snippet`: upsert serializes
the dict with `json.dumps`, and the read path decodes the stored string
(which starts with an opening brace and ends with a closing brace) back to
the original dict via `json.loads`, modelled as any parser that inverts
the serialization at this value.  The two exclusions are both forced by
the code: list values, by the counterexample, stay serialized strings on
read, and the key `text_snippet`, by
`prepareMetadata_text_snippet_overwritten`, is overwritten with the
content snippet after the metadata loop and so never stores the dict. -/
theorem metadata_roundtrip_dict (doc : Document) (i : Nat)
    (items : List (Str × JValue)) (hmd : doc.metadata = some items)
    (hnd : (items.map Prod.fst).Nodup) (k : Str)
    (fs : List (Str × JValue))
    (hk : lookupKV items k = some (.obj fs))
    (hks : k ≠ "text_snippet".toList)
    (loads : Str → Option JValue)
    (hload : loads (dumps (.obj fs)) = some (.obj fs)) :
    lookupKV (decodeMetadata loads (prepareMetadata doc i)) k
      = some (.obj fs) := by
  rw [lookupKV_decodeMetadata,
    prepareMetadata_lookup_nested doc i items hmd hnd k _ hk hks]
  rw [show encodeMetaVal (.obj fs) = .str (dumps (.obj fs)) from rfl]
  rw [Option.map_some']
  rw [decodeMetaVal_dumps_obj loads fs hload]

/-- C5 witness: the dict round-trip evaluated at a concrete document whose
metadata holds the object with field `a = 1`. -/
theorem metadata_roundtrip_dict_witness :
    lookupKV
      (decodeMetadata
        (fun s => if s = dumps (.obj [("a".toList, JValue.num 1)])
          then some (.obj [("a".toList, JValue.num 1)]) else none)
        (prepareMetadata
          { content := "x".toList,
            metadata := some [("k".toList, JValue.obj [("a".toList, JValue.num 1)])] } 0))
      ("k".toList)
    = some (.obj [("a".toList, JValue.num 1)]) :=
  metadata_roundtrip_dict
    { content := "x".toList,
      metadata := some [("k".toList, JValue.obj [("a".toList, JValue.num 1)])] }
    0 [("k".toList, JValue.obj [("a".toList, JValue.num 1)])] rfl
    (by decide) ("k".toList) [("a".toList, JValue.num 1)] (by decide)
    (by decide) _ (by decide)

/-! ### Claim C10 -/

theorem getEmbeddings_eq_filter_map {E : Type} (provider : Str → E)
    (texts : List Str) :
    getEmbeddings provider texts
      = (texts.filter (fun t => !t.isEmpty)).map provider := by
  rw [getEmbeddings]
  split
  · rename_i h
    rw [List.isEmpty_iff.mp h]
    rfl
  · rfl

theorem embedDocuments_snd_of_one_empty {E : Type} (provider : Str → E)
    (pre post : List Document) (d0 : Document)
    (hpre : ∀ d ∈ pre, d.content ≠ [])
    (hd0 : d0.content = [])
    (hpost : ∀ d ∈ post, d.content ≠ []) :
    (embedDocuments provider (pre ++ d0 :: post)).2
      = pre.map (fun d => provider d.content)
        ++ post.map (fun d => provider d.content) := by
  rw [show (embedDocuments provider (pre ++ d0 :: post)).2
        = getEmbeddings provider ((pre ++ d0 :: post).map Document.content)
        from rfl,
    getEmbeddings_eq_filter_map, List.map_append, List.map_cons, hd0,
    List.filter_append, List.filter_cons]
  simp only [List.isEmpty_nil, Bool.not_true, Bool.false_eq_true, if_false]
  rw [List.filter_eq_self.mpr ?hpre, List.filter_eq_self.mpr ?hpost,
    List.map_append, List.map_map, List.map_map]
  rfl
  case hpre =>
    intro a ha
    rcases List.mem_map.mp ha with ⟨d, hd, rfl⟩
    simpa using hpre d hd
  case hpost =>
    intro a ha
    rcases List.mem_map.mp ha with ⟨d, hd, rfl⟩
    simpa using hpost d hd

/-- C10: `upsert_documents` pairs documents and embeddings strictly by list
position and writes exactly `min(len(documents), len(embeddings))` records
while returning `True`; because `get_embeddings` silently drops empty
texts, a batch with exactly one empty-content document (at position
`pre.length`) produces one embedding fewer than documents, so the record
written at every position from `pre.length` onward belongs to the document
at that position but carries the embedding of the following document's
content, and the final document gets no record at all. -/
theorem upsert_zip_misalignment {E : Type} (provider : Str → E)
    (store : List (Str × VecRecord E))
    (pre post : List Document) (d0 : Document)
    (hpre : ∀ d ∈ pre, d.content ≠ [])
    (hd0 : d0.content = [])
    (hpost : ∀ d ∈ post, d.content ≠ []) :
    ((embedDocuments provider (pre ++ d0 :: post)).2.length
        = pre.length + post.length) ∧
    ((buildVectors (pre ++ d0 :: post)
        (embedDocuments provider (pre ++ d0 :: post)).2).length
        = pre.length + post.length) ∧
    ((upsertDocuments store (pre ++ d0 :: post)
        (embedDocuments provider (pre ++ d0 :: post)).2).2 = true) ∧
    (∀ (j : Nat) (hj : j < pre.length)
        (hjv : j < (buildVectors (pre ++ d0 :: post)
          (embedDocuments provider (pre ++ d0 :: post)).2).length),
      ((buildVectors (pre ++ d0 :: post)
          (embedDocuments provider (pre ++ d0 :: post)).2).get ⟨j, hjv⟩).values
        = provider ((pre.get ⟨j, hj⟩).content)) ∧
    (∀ (j : Nat) (hj : j < post.length)
        (hjv : pre.length + j < (buildVectors (pre ++ d0 :: post)
          (embedDocuments provider (pre ++ d0 :: post)).2).length),
      (((buildVectors (pre ++ d0 :: post)
          (embedDocuments provider (pre ++ d0 :: post)).2).get
            ⟨pre.length + j, hjv⟩).values
          = provider ((post.get ⟨j, hj⟩).content)) ∧
      (((buildVectors (pre ++ d0 :: post)
          (embedDocuments provider (pre ++ d0 :: post)).2).get
            ⟨pre.length + j, hjv⟩).id
          = mkDocId ((d0 :: post).get ⟨j, Nat.lt_succ_of_lt hj⟩)
              (pre.length + j))) := by
  have hembs := embedDocuments_snd_of_one_empty provider pre post d0 hpre hd0 hpost
  have hlenpre : pre.length = (pre.map (fun d => provider d.content)).length := by
    rw [List.length_map]
  have hzip : (pre ++ d0 :: post).zip
      ((embedDocuments provider (pre ++ d0 :: post)).2)
      = pre.zip (pre.map (fun d => provider d.content))
        ++ (d0 :: post).zip (post.map (fun d => provider d.content)) := by
    rw [hembs, List.zip_append hlenpre]
  have hlenzip1 : (pre.zip (pre.map (fun d => provider d.content))).length
      = pre.length := by
    rw [List.length_zip, List.length_map]
    omega
  have hlenzip2 : ((d0 :: post).zip (post.map (fun d => provider d.content))).length
      = post.length := by
    rw [List.length_zip, List.length_cons, List.length_map]
    omega
  have hlenall : ((pre ++ d0 :: post).zip
      ((embedDocuments provider (pre ++ d0 :: post)).2)).length
      = pre.length + post.length := by
    rw [hzip, List.length_append, hlenzip1, hlenzip2]
  have hveclen : (buildVectors (pre ++ d0 :: post)
      (embedDocuments provider (pre ++ d0 :: post)).2).length
      = pre.length + post.length := by
    rw [show buildVectors (pre ++ d0 :: post)
          (embedDocuments provider (pre ++ d0 :: post)).2
        = buildVectorsAux ((pre ++ d0 :: post).zip
          ((embedDocuments provider (pre ++ d0 :: post)).2)) 0 from rfl,
      buildVectorsAux_length, hlenall]
  refine ⟨?_, hveclen, rfl, ?_, ?_⟩
  · rw [hembs, List.length_append, List.length_map, List.length_map]
  · intro j hj hjv
    have hz : j < ((pre ++ d0 :: post).zip
        ((embedDocuments provider (pre ++ d0 :: post)).2)).length := by
      rw [hlenall]; omega
    have hget := buildVectorsAux_get
      ((pre ++ d0 :: post).zip ((embedDocuments provider (pre ++ d0 :: post)).2))
      0 j hjv hz
    have hpair : (((pre ++ d0 :: post).zip
        ((embedDocuments provider (pre ++ d0 :: post)).2)).get ⟨j, hz⟩)
        = (pre.get ⟨j, hj⟩, provider ((pre.get ⟨j, hj⟩).content)) := by
      have hz' : j < (pre.zip (pre.map (fun d => provider d.content))).length := by
        rw [hlenzip1]; exact hj
      simp only [List.get_eq_getElem]
      simp only [hzip]
      rw [List.getElem_append_left hz']
      rw [List.getElem_zip, List.getElem_map]
    have hv := congrArg VecRecord.values hget
    exact hv.trans (congrArg Prod.snd hpair)
  · intro j hj hjv
    have hz : pre.length + j < ((pre ++ d0 :: post).zip
        ((embedDocuments provider (pre ++ d0 :: post)).2)).length := by
      rw [hlenall]; omega
    have hget := buildVectorsAux_get
      ((pre ++ d0 :: post).zip ((embedDocuments provider (pre ++ d0 :: post)).2))
      0 (pre.length + j) hjv hz
    have hpair : (((pre ++ d0 :: post).zip
        ((embedDocuments provider (pre ++ d0 :: post)).2)).get ⟨pre.length + j, hz⟩)
        = ((d0 :: post).get ⟨j, Nat.lt_succ_of_lt hj⟩,
           provider ((post.get ⟨j, hj⟩).content)) := by
      have hle : (pre.zip (pre.map (fun d => provider d.content))).length
          ≤ pre.length + j := by
        rw [hlenzip1]; omega
      simp only [List.get_eq_getElem]
      simp only [hzip]
      rw [List.getElem_append_right hle]
      have hidx : pre.length + j - (pre.zip (pre.map (fun d => provider d.content))).length = j := by
        rw [hlenzip1]; omega
      simp only [hidx]
      rw [List.getElem_zip, List.getElem_map]
    constructor
    · have hv := congrArg VecRecord.values hget
      exact hv.trans (congrArg Prod.snd hpair)
    · have hi := congrArg VecRecord.id hget
      rw [congrArg Prod.fst hpair] at hi
      rw [Nat.zero_add] at hi
      exact hi

/-- C10 witness: a four-document batch whose second document has empty
content produces three embeddings and three records. -/
theorem upsert_zip_misalignment_witness :
    ((embedDocuments (fun s : Str => s.length)
        ([{ content := "a".toList }] ++ { content := [] } ::
          [{ content := "bc".toList }, { content := "d".toList }])).2.length
      = 3) ∧
    ((buildVectors
        ([{ content := "a".toList }] ++ { content := [] } ::
          [{ content := "bc".toList }, { content := "d".toList }])
        (embedDocuments (fun s : Str => s.length)
          ([{ content := "a".toList }] ++ { content := [] } ::
            [{ content := "bc".toList }, { content := "d".toList }])).2).length
      = 3) := by
  have h := upsert_zip_misalignment (fun s : Str => s.length) []
    [{ content := "a".toList }]
    [{ content := "bc".toList }, { content := "d".toList }]
    { content := [] }
    (by intro d hd; rcases List.mem_singleton.mp hd with rfl; decide)
    (by decide)
    (by
      intro d hd
      rcases List.mem_cons.mp hd with rfl | hd'
      · decide
      · rcases List.mem_singleton.mp hd' with rfl; decide)
  exact ⟨h.1, h.2.1⟩

/-! ### Claim C6 -/

theorem pyStrip_length_le (s : Str) : (pyStrip s).length ≤ s.length := by
  rw [pyStrip, List.length_reverse]
  calc (List.dropWhile isPySpace (List.dropWhile isPySpace s).reverse).length
      ≤ (List.dropWhile isPySpace s).reverse.length :=
        (List.dropWhile_sublist _).length_le
    _ = (List.dropWhile isPySpace s).length := List.length_reverse _
    _ ≤ s.length := (List.dropWhile_sublist _).length_le

theorem joinDocs_some_length (docs : List Str) (doc : Str)
    (h : joinDocs docs = some doc) :
    doc.length ≤ (docs.map List.length).sum := by
  rw [joinDocs] at h
  split at h
  · exact Option.noConfusion h
  · obtain rfl := Option.some.inj h
    calc (pyStrip docs.flatten).length
        ≤ docs.flatten.length := pyStrip_length_le _
      _ = (docs.map List.length).sum := List.length_flatten _

theorem popWhile_spec (C O l : Nat) :
    ∀ (cur : List Str) (total : Nat), total = (cur.map List.length).sum →
      (popWhile C O l cur total).2
          = ((popWhile C O l cur total).1.map List.length).sum ∧
      ((popWhile C O l cur total).2 + l ≤ C ∨ (popWhile C O l cur total).2 = 0) := by
  intro cur
  induction cur with
  | nil =>
    intro total ht
    refine ⟨ht, Or.inr ?_⟩
    simpa using ht
  | cons d rest ih =>
    intro total ht
    rw [popWhile]
    split
    · apply ih
      rw [List.map_cons, List.sum_cons] at ht
      omega
    · rename_i hcond
      refine ⟨ht, ?_⟩
      rcases Nat.eq_zero_or_pos total with h0 | hpos
      · exact Or.inr h0
      · left
        by_contra hlt
        exact hcond (Or.inr ⟨by omega, hpos⟩)

theorem mergeLoop_le (C O : Nat) :
    ∀ (splits cur : List Str) (total : Nat) (docs : List Str),
      (∀ s ∈ splits, s.length < C) →
      total = (cur.map List.length).sum →
      total ≤ C →
      (∀ x ∈ docs, x.length ≤ C) →
      ∀ x ∈ mergeLoop C O splits cur total docs, x.length ≤ C := by
  intro splits
  induction splits with
  | nil =>
    intro cur total docs _ ht hC hd x hx
    rw [mergeLoop] at hx
    cases hj : joinDocs cur with
    | none => rw [hj] at hx; exact hd x hx
    | some doc =>
      rw [hj] at hx
      rcases List.mem_append.mp hx with h | h
      · exact hd x h
      · obtain rfl := List.mem_singleton.mp h
        have := joinDocs_some_length cur x hj
        omega
  | cons d rest ih =>
    intro cur total docs hs ht hC hd x hx
    have hdlen : d.length < C := hs d (List.mem_cons_self d rest)
    have hrest : ∀ s ∈ rest, s.length < C :=
      fun s h => hs s (List.mem_cons_of_mem d h)
    cases cur with
    | nil =>
      rw [mergeLoop] at hx
      split at hx
      · refine ih [d] (total + d.length) docs hrest ?_ ?_ hd x hx
        · simp at ht
          simp [ht]
        · simp at ht
          omega
      · refine ih ([] ++ [d]) (total + d.length) docs hrest ?_ ?_ hd x hx
        · rw [List.map_append, List.sum_append]
          simp [ht]
        · rename_i hnot
          omega
    | cons c ctail =>
      rw [mergeLoop] at hx
      split at hx
      · rename_i hover
        obtain ⟨hp1, hp2⟩ := popWhile_spec C O d.length (c :: ctail) total ht
        have hdocs' : ∀ y ∈
            (match joinDocs (c :: ctail) with
             | none => docs
             | some doc => docs ++ [doc]), y.length ≤ C := by
          cases hj : joinDocs (c :: ctail) with
          | none => exact hd
          | some doc =>
            intro y hy
            rcases List.mem_append.mp hy with h | h
            · exact hd y h
            · obtain rfl := List.mem_singleton.mp h
              have := joinDocs_some_length (c :: ctail) y hj
              omega
        refine ih ((popWhile C O d.length (c :: ctail) total).1 ++ [d])
          ((popWhile C O d.length (c :: ctail) total).2 + d.length) _
          hrest ?_ ?_ hdocs' x hx
        · rw [List.map_append, List.sum_append]
          simp [hp1]
        · rcases hp2 with h | h
          · exact h
          · omega
      · rename_i hnot
        refine ih ((c :: ctail) ++ [d]) (total + d.length) docs hrest ?_ ?_ hd x hx
        · rw [List.map_append, List.sum_append]
          simp [ht]
        · omega

theorem mergeSplits_le (C O : Nat) (splits : List Str)
    (hs : ∀ s ∈ splits, s.length < C) :
    ∀ x ∈ mergeSplits C O splits, x.length ≤ C :=
  mergeLoop_le C O splits [] 0 [] hs rfl (Nat.zero_le C)
    (fun x hx => absurd hx (List.not_mem_nil x))

theorem splitTextWithSep_empty_sep (text : Str) :
    ∀ s ∈ splitTextWithSep [] text, s.length = 1 := by
  intro s hs
  rw [splitTextWithSep, if_pos rfl] at hs
  have hs' := List.mem_of_mem_filter hs
  rcases List.mem_map.mp hs' with ⟨c, _, rfl⟩
  rfl

theorem processSplits_le (C O : Nat) (newSeps : List Str) :
    ∀ (splits good final : List Str),
      (∀ s ∈ splits, C ≤ s.length →
        ∀ out ∈ (if newSeps = [] then [s] else splitText C O newSeps s),
          out.length ≤ C) →
      (∀ s ∈ good, s.length < C) →
      (∀ x ∈ final, x.length ≤ C) →
      ∀ out ∈ processSplits C O newSeps splits good final, out.length ≤ C := by
  intro splits
  induction splits with
  | nil =>
    intro good final _ hg hf out hout
    rw [processSplits] at hout
    split at hout
    · exact hf out hout
    · rcases List.mem_append.mp hout with h | h
      · exact hf out h
      · exact mergeSplits_le C O good hg out h
  | cons s rest ih =>
    intro good final hbad hg hf out hout
    have hbadrest : ∀ s' ∈ rest, C ≤ s'.length →
        ∀ x ∈ (if newSeps = [] then [s'] else splitText C O newSeps s'),
          x.length ≤ C :=
      fun s' h hc => hbad s' (List.mem_cons_of_mem s h) hc
    rw [processSplits] at hout
    split at hout
    · rename_i hlt
      refine ih (good ++ [s]) final hbadrest ?_ hf out hout
      intro t ht
      rcases List.mem_append.mp ht with h | h
      · exact hg t h
      · obtain rfl := List.mem_singleton.mp h
        exact hlt
    · rename_i hge
      have hfin1 : ∀ x ∈ (if good = [] then final else final ++ mergeSplits C O good),
          x.length ≤ C := by
        split
        · exact hf
        · intro x hx
          rcases List.mem_append.mp hx with h | h
          · exact hf x h
          · exact mergeSplits_le C O good hg x h
      split at hout
      · rename_i hnil
        refine ih [] _ hbadrest
          (fun t ht => absurd ht (List.not_mem_nil t)) ?_ out hout
        intro x hx
        rcases List.mem_append.mp hx with h | h
        · exact hfin1 x h
        · obtain rfl := List.mem_singleton.mp h
          exact hbad x (List.mem_cons_self x rest) (by omega) x
            (by rw [if_pos hnil]; exact List.mem_singleton.mpr rfl)
      · rename_i hnonnil
        refine ih [] _ hbadrest
          (fun t ht => absurd ht (List.not_mem_nil t)) ?_ out hout
        intro x hx
        rcases List.mem_append.mp hx with h | h
        · exact hfin1 x h
        · exact hbad s (List.mem_cons_self s rest) (by omega) x
            (by rw [if_neg hnonnil]; exact h)

theorem chooseSep_cases (dflt : Str) (seps : List Str) (text : Str)
    (h : [] ∈ seps) :
    ((chooseSep dflt seps text).1 = [] ∧ (chooseSep dflt seps text).2 = []) ∨
    ((chooseSep dflt seps text).1 ≠ [] ∧ [] ∈ (chooseSep dflt seps text).2) := by
  induction seps with
  | nil => exact absurd h (List.not_mem_nil [])
  | cons s rest ih =>
    rw [chooseSep]
    split
    · exact Or.inl ⟨rfl, rfl⟩
    · rename_i hne
      have hmem : [] ∈ rest := by
        rcases List.mem_cons.mp h with h' | h'
        · exact absurd h'.symm hne
        · exact h'
      split
      · exact Or.inr ⟨hne, hmem⟩
      · exact ih hmem

theorem splitText_le (C O : Nat) (hC : 1 ≤ C) :
    ∀ (n : Nat) (seps : List Str), seps.length ≤ n → [] ∈ seps →
      ∀ (text out : Str), out ∈ splitText C O seps text → out.length ≤ C := by
  intro n
  induction n with
  | zero =>
    intro seps hlen hmem text out hout
    have hnil : seps = [] := List.eq_nil_of_length_eq_zero (Nat.le_zero.mp hlen)
    subst hnil
    exact absurd hmem (List.not_mem_nil [])
  | succ n ih =>
    intro seps hlen hmem text out hout
    have hne : seps ≠ [] := by
      intro h
      subst h
      exact absurd hmem (List.not_mem_nil [])
    rw [splitText, dif_neg hne] at hout
    rcases chooseSep_cases (seps.getLastD []) seps text hmem with ⟨h1, h2⟩ | ⟨h1, h2⟩
    · rw [h1, h2] at hout
      refine processSplits_le C O [] _ [] [] ?_
        (fun t ht => absurd ht (List.not_mem_nil t))
        (fun t ht => absurd ht (List.not_mem_nil t)) out hout
      intro s hsmem hClen x hx
      rw [if_pos rfl] at hx
      obtain rfl := List.mem_singleton.mp hx
      have h1len : x.length = 1 := splitTextWithSep_empty_sep text x hsmem
      omega
    · have hlt := chooseSep_snd_lt (seps.getLastD []) seps text hne
      refine processSplits_le C O _ _ [] [] ?_
        (fun t ht => absurd ht (List.not_mem_nil t))
        (fun t ht => absurd ht (List.not_mem_nil t)) out hout
      intro s _ _ x hx
      have hch2ne : (chooseSep (seps.getLastD []) seps text).2 ≠ [] := by
        intro h
        rw [h] at h2
        exact absurd h2 (List.not_mem_nil [])
      rw [if_neg hch2ne] at hx
      exact ih (chooseSep (seps.getLastD []) seps text).2 (by omega) h2 s x hx

theorem enumChunks_content_mem (doc : Document) (n : Nat) :
    ∀ (ts : List Str) (i : Nat) (ch : Document),
      ch ∈ enumChunks doc n ts i → ch.content ∈ ts := by
  intro ts
  induction ts with
  | nil => intro i ch h; exact absurd h (List.not_mem_nil ch)
  | cons t ts ih =>
    intro i ch h
    rw [enumChunks] at h
    rcases List.mem_cons.mp h with h' | h'
    · subst h'
      exact List.mem_cons_self t ts
    · exact List.mem_cons_of_mem t (ih (i + 1) ch h')

/-- C6: with configured `chunk_size = C` and `chunk_overlap = O` satisfying
`O < C`, every chunk returned by `TextChunker.chunk_document` has content
length at most `C`: good splits are merged under the `chunk_size` budget,
oversize splits are recursively re-split down to single characters, and a
single character only becomes its own chunk when `C = 1`. -/
theorem chunkDocument_content_le (C O : Nat) (doc : Document) (hO : O < C) :
    ∀ ch ∈ chunkDocument C O doc, ch.content.length ≤ C := by
  intro ch hch
  rw [chunkDocument] at hch
  split at hch
  · exact absurd hch (List.not_mem_nil ch)
  · have hmem := enumChunks_content_mem doc _ _ 0 ch hch
    exact splitText_le C O (by omega) defaultSeparators.length defaultSeparators
      le_rfl (by simp [defaultSeparators]) doc.content ch.content hmem

theorem chunkDocument_small_eval :
    chunkDocument 5 0 { content := "ab".toList } =
      [{ content := "ab".toList, chunkId := some 0, chunkCount := some 1 }] := by
  simp [chunkDocument, splitText, processSplits, chooseSep, splitTextWithSep,
    splitOnStr, findOcc, startsWithStr, mergeSplits, mergeLoop, popWhile,
    joinDocs, pyStrip, isPySpace, enumChunks, defaultSeparators]

/-- C6 witness: the chunk-length bound evaluated at a two-character
document with `chunk_size = 5` and `chunk_overlap = 0`. -/
theorem chunkDocument_content_le_witness :
    (0 < 5) ∧
    ({ content := "ab".toList, chunkId := some 0, chunkCount := some 1 :
        Document }.content.length ≤ 5) :=
  ⟨by decide,
   chunkDocument_content_le 5 0 { content := "ab".toList } (by decide)
     { content := "ab".toList, chunkId := some 0, chunkCount := some 1 }
     (by rw [chunkDocument_small_eval]; exact List.mem_singleton.mpr rfl)⟩

end FinRag
